import Mathlib

/-!
Verification of the training script `ensemble/train_ensemble.py` of the
repository `level1-image-classification-level1-cv-12`.

Paths are modelled as lists of characters, the filesystem as the list of
existing directory entries.  Floating-point scalars that the script merely
stores and compares (losses, accuracies, F1 scores) are modelled as
rationals; the one place where the 32-bit storage format is observable
(the `dtype=np.float32` metrics table) gets an explicit binary32
rounding model.
-/

/-- Characters of the final path component (the part after the last `'/'`),
as in `pathlib.PurePath.name`. -/
def pathName (p : List Char) : List Char :=
  (p.reverse.takeWhile (fun c => !(c == '/'))).reverse

/-- Index of the last `'.'` in a component, mirroring Python's `str.rfind`. -/
def lastIdxOfDot : List Char → Option Nat
  | [] => none
  | c :: t =>
    match lastIdxOfDot t with
    | some j => some (j + 1)
    | none => if c = '.' then some 0 else none

/-- Stem of a path, as `pathlib.PurePath.stem`: the final component without its suffix.  The
suffix is nonempty only when the last dot of the name sits strictly inside
the name (CPython: `0 < i < len(name) - 1`). -/
def pyStem (p : List Char) : List Char :=
  let name := pathName p
  match lastIdxOfDot name with
  | some i => if 0 < i ∧ i + 1 < name.length then name.take i else name
  | none => name

/-- Numeric value of a decimal digit character (`int` applied to one char). -/
def digitVal (c : Char) : Nat := c.toNat - 48

/-- Value of a decimal digit string, as Python's `int` on the captured group. -/
def digitsToNat (l : List Char) : Nat := l.foldl (fun a c => 10 * a + digitVal c) 0

/-- One attempt of `re.search(stem + r"(\d+)", d)` at the current position:
the literal stem must match here and be followed by at least one digit; the
greedy group captures the maximal digit run. -/
def matchAt (stem d : List Char) : Option Nat :=
  if stem.isPrefixOf d then
    let ds := (d.drop stem.length).takeWhile Char.isDigit
    if ds.isEmpty then none else some (digitsToNat ds)
  else none

/-- Search of `stem + r"(\d+)"` in `d`, as `re.search` for a metacharacter-free stem: the
leftmost position where the stem is immediately followed by a digit wins,
and the captured digit run is returned as a number. -/
def reSearch (stem : List Char) : List Char → Option Nat
  | [] => matchAt stem []
  | c :: tl =>
    match matchAt stem (c :: tl) with
    | some n => some n
    | none => reSearch stem tl

/-- Glob of the pattern `path*` over the existing entries `fs`: entries that
extend `path` without introducing a new path separator (`*` does not match
`'/'`). -/
def globStar (fs : List (List Char)) (p : List Char) : List (List Char) :=
  fs.filter (fun d => p.isPrefixOf d && !((d.drop p.length).contains '/'))

/-- Digit character of a value below ten. -/
def digitChar : Nat → Char
  | 0 => '0' | 1 => '1' | 2 => '2' | 3 => '3' | 4 => '4'
  | 5 => '5' | 6 => '6' | 7 => '7' | 8 => '8' | _ => '9'

/-- Decimal digits of `n`, least significant first, with explicit fuel so
that the kernel can evaluate it. -/
def natDigitsRevFuel : Nat → Nat → List Char
  | 0, _ => []
  | _, 0 => []
  | fuel + 1, n + 1 => digitChar ((n + 1) % 10) :: natDigitsRevFuel fuel ((n + 1) / 10)

/-- Decimal rendering of a natural number, as Python's `str`/f-string. -/
def natToDigits (n : Nat) : List Char :=
  if n = 0 then ['0'] else (natDigitsRevFuel n n).reverse

/-- Python's `max` over a nonempty list of naturals, `None` on the empty
list (the script guards the empty case with `if i`). -/
def pyMax : List Nat → Option Nat
  | [] => none
  | a :: t => some (t.foldl Nat.max a)

/-- Embedding of `increment_path` of `train_ensemble.py`: `fs` is the list of existing
entries.  If the path does not exist, or `exist_ok` is set, it is returned
unchanged; otherwise the glob siblings are scanned with
`re.search(stem + r"(\d+)", d)`, and the path gets suffix `max + 1`, or `2`
when no search succeeds. -/
def increment_path (fs : List (List Char)) (path : List Char) (exist_ok : Bool) :
    List Char :=
  if (fs.contains path && exist_ok) || !fs.contains path then path
  else
    let dirs := globStar fs path
    let i := dirs.filterMap (reSearch (pyStem path))
    match pyMax i with
    | some m => path ++ natToDigits (m + 1)
    | none => path ++ natToDigits 2

/-- A `torch.nn.Linear` layer, reduced to its in/out feature counts. -/
structure Linear where
  inF : Nat
  outF : Nat
deriving DecidableEq, Repr

/-- Which attribute the network's `forward` feeds the pooled features to. -/
inductive HeadAttr
  | fc
  | classifier
deriving DecidableEq, Repr

/-- A Python model object as far as `select_model` manipulates it: its two
possible head attributes (`fc`, `classifier`; either may be absent before
assignment) and the attribute the architecture's `forward` actually uses. -/
structure PyModel where
  arch : String
  fc : Option Linear
  classifier : Option Linear
  head : HeadAttr
deriving DecidableEq, Repr

/-- Number of logits the model's `forward` emits: the out-features of the
attribute its architecture reads as final layer. -/
def outLogits (m : PyModel) : Option Nat :=
  match m.head with
  | .fc => m.fc.map Linear.outF
  | .classifier => m.classifier.map Linear.outF

/-- Modelled from the torchvision source: `resnet18` ends in
`self.fc = nn.Linear(512, 1000)` and its `forward` uses `fc`. -/
def resnet18_pretrained : PyModel :=
  { arch := "resnet18", fc := some ⟨512, 1000⟩, classifier := none, head := .fc }

/-- Modelled from the torchvision source: `densenet161` ends in
`self.classifier = nn.Linear(2208, 1000)` and its `forward` uses
`classifier`. -/
def densenet161_pretrained : PyModel :=
  { arch := "densenet161", fc := none, classifier := some ⟨2208, 1000⟩, head := .classifier }

/-- Modelled from the torchvision source: `shufflenet_v2_x1_0` ends in
`self.fc = nn.Linear(1024, 1000)` and its `forward` uses `fc`. -/
def shufflenet_pretrained : PyModel :=
  { arch := "shufflenet_v2_x1_0", fc := some ⟨1024, 1000⟩, classifier := none, head := .fc }

/-- Modelled from the efficientnet-pytorch source:
`EfficientNet.from_pretrained('efficientnet-b0', num_classes=n)` builds the
network with `self._fc = nn.Linear(1280, n)` (modelled here as the `fc`
attribute), which its `forward` uses. -/
def efficientnet_b0_pretrained (num_classes : Nat) : PyModel :=
  { arch := "efficientnet-b0", fc := some ⟨1280, num_classes⟩, classifier := none, head := .fc }

/-- Outcomes of a Python call: a value or an uncaught exception. -/
inductive PyErr
  | unboundLocal
deriving DecidableEq, Repr

/-- Embedding of `select_model` of `train_ensemble.py`.  Each recognized identifier
assigns a fresh `nn.Linear` to a fixed attribute of the pretrained network;
an unrecognized identifier reaches `return model_` with `model_` never
assigned, which raises `UnboundLocalError`. -/
def select_model (model : String) (num_classes : Nat) : Except PyErr PyModel :=
  if model = "resnet18" then
    .ok { resnet18_pretrained with classifier := some ⟨1024, num_classes⟩ }
  else if model = "densenet161" then
    .ok { densenet161_pretrained with classifier := some ⟨2208, num_classes⟩ }
  else if model = "shufflenet" then
    .ok { shufflenet_pretrained with fc := some ⟨1024, num_classes⟩ }
  else if model = "efficientnet" then
    .ok (efficientnet_b0_pretrained num_classes)
  else
    .error .unboundLocal

/-- The command-line configuration object built by the script's argument
parser (the parser defines exactly these fields; a `--model` flag is
commented out). -/
structure Args where
  seed : Nat
  epochs : Nat
  dataset : String
  batch_size : Nat
  valid_batch_size : Nat
  optimizer : String
  lr : ℚ
  val_ratio : ℚ
  criterion : String
  lr_decay_step : Nat
  log_interval : Nat
  name : String
  data_dir : String
  model_dir : String

/-- The model construction performed inside the fold loop of `train`:
`model = select_model('efficientnet', 18).to(device)`.  Both the parsed
arguments and the dataset's `num_classes` are in scope at that line but do
not flow into the call. -/
def foldModelChoice (_args : Args) (_dataset_num_classes : Nat) : Except PyErr PyModel :=
  select_model ("efficientnet") 18

/-- The scalars one epoch's validation loop produces: macro-F1, accuracy and
mean loss over the validation set. -/
structure EpochVal where
  f1 : ℚ
  acc : ℚ
  loss : ℚ
deriving DecidableEq, Repr

/-- The files the fold writes, identified by the epoch whose state they
hold: `best.pth`, the two error-analysis CSV reports (`f1_result.csv`
and `pred_result.csv`), and `last.pth`. -/
structure FoldArtifacts where
  best : Option Nat
  bestReports : Option Nat
  last : Option Nat
deriving DecidableEq, Repr

/-- Per-fold mutable state of the epoch loop: the tracked best scalars and
the artifact files.  `best_val_loss = none` models the `np.inf`
initialization; `eaCalls` counts invocations of the error-analysis writer. -/
structure FoldSt where
  best_f1 : ℚ
  best_val_acc : ℚ
  best_val_loss : Option ℚ
  arts : FoldArtifacts
  eaCalls : Nat
deriving DecidableEq, Repr

/-- State at the top of the fold loop:
`best_val_acc = 0`, `best_val_loss = np.inf`, `best_f1 = 0`, no files. -/
def initFoldSt : FoldSt :=
  { best_f1 := 0, best_val_acc := 0, best_val_loss := none,
    arts := { best := none, bestReports := none, last := none }, eaCalls := 0 }

/-- The end-of-epoch validation block of `train`: on `val_f1 > best_f1` the
script saves `best.pth`, updates the best scalars and writes the two
error-analysis reports; in every case it then saves `last.pth`. -/
def valStep (epoch : Nat) (e : EpochVal) (s : FoldSt) : FoldSt :=
  let s1 :=
    if s.best_f1 < e.f1 then
      { best_f1 := e.f1, best_val_acc := e.acc, best_val_loss := some e.loss,
        arts := { best := some epoch, bestReports := some epoch, last := s.arts.last },
        eaCalls := s.eaCalls + 1 }
    else s
  { s1 with arts := { s1.arts with last := some epoch } }

/-- The epoch loop of one fold, starting at epoch index `epoch`. -/
def runFoldAux (epoch : Nat) (s : FoldSt) : List EpochVal → FoldSt
  | [] => s
  | e :: t => runFoldAux (epoch + 1) (valStep epoch e s) t

/-- One fold's epoch loop over the given sequence of validation results. -/
def runFold (es : List EpochVal) : FoldSt := runFoldAux 0 initFoldSt es

/-- What one training batch contributes to the running sums: its scalar
loss and its number of correct predictions (the script's `matches`). -/
structure BatchRes where
  loss : ℚ
  matched : Nat
deriving DecidableEq, Repr

/-- Running state of the batch loop's logging: the running loss sum, the
running match count (`matches` in the script), and the log entries emitted
so far (batch counter, logged loss, logged accuracy). -/
structure TrainLog where
  loss_value : ℚ
  matchCnt : Nat
  logs : List (Nat × ℚ × ℚ)
deriving DecidableEq, Repr

/-- One iteration of the batch loop's bookkeeping: accumulate loss and
matches; when `(idx + 1) % log_interval == 0`, log
`loss_value / log_interval` and `matches / batch_size / log_interval` and
reset both running sums to zero. -/
def batchStep (li bs idx : Nat) (b : BatchRes) (s : TrainLog) : TrainLog :=
  let lv := s.loss_value + b.loss
  let mt := s.matchCnt + b.matched
  if (idx + 1) % li = 0 then
    { loss_value := 0, matchCnt := 0,
      logs := s.logs ++ [(idx + 1, lv / (li : ℚ), (mt : ℚ) / (bs : ℚ) / (li : ℚ))] }
  else
    { s with loss_value := lv, matchCnt := mt }

/-- The batch loop from batch index `idx` on. -/
def runBatchesAux (li bs idx : Nat) (s : TrainLog) : List BatchRes → TrainLog
  | [] => s
  | b :: t => runBatchesAux li bs (idx + 1) (batchStep li bs idx b s) t

/-- One epoch's batch loop, as far as loss/accuracy logging is concerned. -/
def runBatches (li bs : Nat) (l : List BatchRes) : TrainLog :=
  runBatchesAux li bs 0 { loss_value := 0, matchCnt := 0, logs := [] } l

/-- First index a log entry covers: the window of the entry logged at
counter `idx + 1` starts at `idx + 1 - li`; after `n` batches the running
sums cover the batches from `n - n % li` on. -/
def windowStart (n li : Nat) : Nat := n - n % li

/-- Specification of the log stream, written from the spec's words: an
entry appears exactly at the positive multiples of the log interval, and it
averages exactly the batches since the previous entry. -/
def specLogs (li bs : Nat) (l : List BatchRes) : List (Nat × ℚ × ℚ) :=
  (List.range l.length).filterMap (fun idx =>
    if (idx + 1) % li = 0 then
      some (idx + 1,
        (((l.take (idx + 1)).drop (idx + 1 - li)).map BatchRes.loss).sum / (li : ℚ),
        ((((l.take (idx + 1)).drop (idx + 1 - li)).map BatchRes.matched).sum : ℚ)
          / (bs : ℚ) / (li : ℚ))
    else none)

/-- Base-2 logarithm of a natural number with explicit fuel, so that the
kernel can evaluate it (`Nat.log2` itself is defined by well-founded
recursion and does not reduce). -/
def log2fuel : Nat → Nat → Nat
  | 0, _ => 0
  | fuel + 1, n => if 2 ≤ n then log2fuel fuel (n / 2) + 1 else 0

/-- Floor of the base-2 logarithm. -/
def natLog2 (n : Nat) : Nat := log2fuel n n

/-- Does `2 ^ e ≤ a / b` hold, decided purely with integer arithmetic. -/
def pow2Le (e : Int) (a b : Nat) : Bool :=
  if 0 ≤ e then 2 ^ e.toNat * b ≤ a else b ≤ a * 2 ^ (-e).toNat

/-- The binade of the positive rational `a / b`: the unique `e` with
`2 ^ e ≤ a / b < 2 ^ (e + 1)`.  A candidate from integer logarithms is
corrected by direct comparison. -/
def binadeOf (a b : Nat) : Int :=
  let e0 : Int := (natLog2 a : Int) - (natLog2 b : Int)
  if pow2Le (e0 + 1) a b then e0 + 1
  else if pow2Le e0 a b then e0
  else if pow2Le (e0 - 1) a b then e0 - 1
  else e0 - 2

/-- IEEE-754 binary32 rounding (round to nearest, ties to even) of a
positive rational in the normal range, modelling what `numpy.float32`
stores.  The 24-bit significand grid of the value's binade has spacing
`2 ^ (e - 23)`; the value is rounded to the nearest grid point with ties
going to the even significand.  Computed entirely with integer arithmetic:
with `s = 23 - e`, the scaled value is `N / D` and the rounded significand
is `n`. -/
def float32RoundPos (q : ℚ) : ℚ :=
  let a := q.num.toNat
  let b := q.den
  let e := binadeOf a b
  let s : Int := 23 - e
  let N := if 0 ≤ s then a * 2 ^ s.toNat else a
  let D := if 0 ≤ s then b else b * 2 ^ (-s).toNat
  let n0 := N / D
  let r2 := 2 * (N % D)
  let n := if r2 < D then n0 else if D < r2 then n0 + 1 else
    if n0 % 2 = 0 then n0 else n0 + 1
  if 0 ≤ s then mkRat (n : Int) (2 ^ s.toNat) else mkRat ((n : Int) * 2 ^ (-s).toNat) 1

/-- Binary32 rounding extended to zero and negative values by sign
symmetry. -/
def float32Round (q : ℚ) : ℚ :=
  if q = 0 then 0
  else if q < 0 then -(float32RoundPos (-q)) else float32RoundPos q

/-- A rational is exactly representable in binary32 when rounding fixes
it. -/
@[reducible] def F32Rep (q : ℚ) : Prop := float32Round q = q

/-- One class's row of sklearn's `classification_report(output_dict=True)`:
`prec`, `rcl` and `f1s` model the values the writer reads under the keys
`'precision'`, `'recall'` and `'f1-score'` of `report[str(idx)]`. -/
structure ReportRow where
  prec : ℚ
  rcl : ℚ
  f1s : ℚ

/-- Embedding of `save_f1_result` of `train_ensemble.py`, abstracting the CSV file as
the list of written rows.  The DataFrame is created with
`index=np.arange(0, 18)` and `dtype=np.float32`, so it has exactly the rows
0..17 in index order, and assigning the float64 report values into it
stores their `float32` conversions; `to_csv(..., index=False)` writes the
rows in index order with columns `precision, recall, f1`. -/
def save_f1_result (report : Nat → ReportRow) : List (List ℚ) :=
  (List.range 18).map (fun idx =>
    [float32Round (report idx).prec,
     float32Round (report idx).rcl,
     float32Round (report idx).f1s])

/-- A synthetic classification report whose every value is `1/3`, a
rational that binary32 cannot represent. -/
def cexReport : Nat → ReportRow := fun _ => ⟨mkRat 1 3, mkRat 1 3, mkRat 1 3⟩

/-- A synthetic classification report whose values are all representable in
binary32. -/
def repReport : Nat → ReportRow := fun _ => ⟨mkRat 1 2, 1, 0⟩

theorem runFoldAux_append (t1 : List EpochVal) (n : Nat) (s : FoldSt) (t2 : List EpochVal) :
    runFoldAux n s (t1 ++ t2) = runFoldAux (n + t1.length) (runFoldAux n s t1) t2 := by
  induction t1 generalizing n s with
  | nil => simp [runFoldAux]
  | cons e t ih =>
    simp only [List.cons_append, runFoldAux, List.length_cons, List.append_eq]
    rw [ih]
    congr 1
    omega

theorem runFold_snoc (l : List EpochVal) (x : EpochVal) :
    runFold (l ++ [x]) = valStep l.length x (runFold l) := by
  simp [runFold, runFoldAux_append, runFoldAux]

/-- Invariant of the fold loop: the error-analysis reports always belong to
the same epoch as `best.pth`; before any best exists, the tracked scalars
still hold their initial values and no epoch had positive F1; once
`best.pth` holds epoch `j`, the tracked scalars are exactly epoch `j`'s,
epoch `j`'s F1 is positive, and no epoch beats it. -/
theorem runFold_inv (l : List EpochVal) :
    ((runFold l).arts.bestReports = (runFold l).arts.best) ∧
    ((runFold l).arts.best = none →
      (runFold l).best_f1 = 0 ∧ (runFold l).best_val_acc = 0 ∧
      (runFold l).best_val_loss = none ∧ ∀ y ∈ l, y.f1 ≤ 0) ∧
    (∀ j, (runFold l).arts.best = some j →
      ∃ e, l[j]? = some e ∧ (runFold l).best_f1 = e.f1 ∧
        (runFold l).best_val_acc = e.acc ∧ (runFold l).best_val_loss = some e.loss ∧
        0 < e.f1 ∧ ∀ y ∈ l, y.f1 ≤ e.f1) := by
  induction l using List.reverseRecOn with
  | nil =>
    refine ⟨rfl, fun _ => ⟨rfl, rfl, rfl, by simp⟩, fun j h => ?_⟩
    simp [runFold, runFoldAux, initFoldSt] at h
  | append_singleton pre x ih =>
    obtain ⟨ihRep, ihNone, ihSome⟩ := ih
    rw [runFold_snoc]
    by_cases hc : (runFold pre).best_f1 < x.f1
    · have hpos : 0 < x.f1 := by
        rcases hb : (runFold pre).arts.best with _ | j
        · have h0 := (ihNone hb).1
          rw [h0] at hc
          exact hc
        · obtain ⟨e, _, hf1, _, _, hepos, _⟩ := ihSome j hb
          rw [hf1] at hc
          exact lt_trans hepos hc
      have hall : ∀ y ∈ pre, y.f1 < x.f1 := by
        intro y hy
        rcases hb : (runFold pre).arts.best with _ | j
        · have h := (ihNone hb).2.2.2 y hy
          have h0 := (ihNone hb).1
          have hx : (0 : ℚ) < x.f1 := h0 ▸ hc
          exact lt_of_le_of_lt h hx
        · obtain ⟨e, _, hf1, _, _, _, hle⟩ := ihSome j hb
          exact lt_of_le_of_lt (hle y hy) (hf1 ▸ hc)
      refine ⟨by simp [valStep, hc], fun h => by simp [valStep, hc] at h, fun j h => ?_⟩
      have hj : j = pre.length := by
        simp [valStep, hc] at h
        omega
      subst hj
      refine ⟨x, ?_, by simp [valStep, hc], by simp [valStep, hc], by simp [valStep, hc],
        hpos, ?_⟩
      · exact List.getElem?_concat_length pre x
      · intro y hy
        rcases List.mem_append.1 hy with h1 | h2
        · exact le_of_lt (hall y h1)
        · simp at h2
          subst h2
          exact le_refl _
    · refine ⟨by simp [valStep, hc, ihRep], fun h => ?_, fun j h => ?_⟩
      · have hb : (runFold pre).arts.best = none := by simpa [valStep, hc] using h
        obtain ⟨h1, h2, h3, h4⟩ := ihNone hb
        refine ⟨?_, ?_, ?_, ?_⟩
        · simp [valStep, hc]
          exact h1
        · simp [valStep, hc]
          exact h2
        · simp [valStep, hc]
          exact h3
        intro y hy
        rcases List.mem_append.1 hy with hy1 | hy2
        · exact h4 y hy1
        · simp at hy2
          subst hy2
          rw [h1] at hc
          exact le_of_not_lt hc
      · have hb : (runFold pre).arts.best = some j := by simpa [valStep, hc] using h
        obtain ⟨e, he, hf1, hacc, hloss, hepos, hle⟩ := ihSome j hb
        have hjlt : j < pre.length := by
          rcases List.getElem?_eq_some.1 he with ⟨hlt, _⟩
          exact hlt
        refine ⟨e, ?_, by simp [valStep, hc]; exact hf1, by simp [valStep, hc]; exact hacc,
          by simp [valStep, hc]; exact hloss, hepos, ?_⟩
        · rw [List.getElem?_append, if_pos hjlt]
          exact he
        · intro y hy
          rcases List.mem_append.1 hy with hy1 | hy2
          · exact hle y hy1
          · simp at hy2
            subst hy2
            rw [← hf1]
            exact le_of_not_lt hc

theorem runFold_best_lt (l : List EpochVal) (j : Nat)
    (h : (runFold l).arts.best = some j) : j < l.length := by
  obtain ⟨e, he, _⟩ := (runFold_inv l).2.2 j h
  rcases List.getElem?_eq_some.1 he with ⟨hlt, _⟩
  exact hlt

/-- The running best F1 is beaten by `c` exactly when `c` is positive and
beats every epoch seen so far. -/
theorem runFold_lt_best_iff (l : List EpochVal) (c : ℚ) :
    ((runFold l).best_f1 < c ↔ 0 < c ∧ ∀ y ∈ l, y.f1 < c) := by
  rcases hb : (runFold l).arts.best with _ | j
  · obtain ⟨h1, _, _, h4⟩ := (runFold_inv l).2.1 hb
    rw [h1]
    constructor
    · intro hc
      exact ⟨hc, fun y hy => lt_of_le_of_lt (h4 y hy) hc⟩
    · intro hc
      exact hc.1
  · obtain ⟨e, he, hf1, _, _, hepos, hle⟩ := (runFold_inv l).2.2 j hb
    rw [hf1]
    have hmem : e ∈ l := List.getElem?_mem he
    constructor
    · intro hc
      exact ⟨lt_trans hepos hc, fun y hy => lt_of_le_of_lt (hle y hy) hc⟩
    · intro hc
      exact hc.2 e hmem

/-- C2 (amended): within a fold, the best artifacts (`best.pth` and the two
diagnostic CSV reports) are overwritten by epoch `pre.length` if and only
if its validation macro-F1 strictly exceeds every previous epoch's F1 and
the initial best value `0`; the reports always belong to the same epoch as
`best.pth`, the error-analysis writer runs exactly when the best artifacts
are overwritten, and the best artifacts always hold an epoch whose F1 no
epoch of the fold exceeds. -/
theorem C2_best_artifact_policy (pre : List EpochVal) (x : EpochVal) :
    ((runFold (pre ++ [x])).arts.best = some pre.length ↔
      0 < x.f1 ∧ ∀ y ∈ pre, y.f1 < x.f1) ∧
    ((runFold (pre ++ [x])).arts.bestReports = (runFold (pre ++ [x])).arts.best) ∧
    ((runFold (pre ++ [x])).eaCalls = (runFold pre).eaCalls + 1 ↔
      (runFold (pre ++ [x])).arts.best = some pre.length) ∧
    (∀ j, (runFold (pre ++ [x])).arts.best = some j →
      ∃ e, (pre ++ [x])[j]? = some e ∧ ∀ y ∈ pre ++ [x], y.f1 ≤ e.f1) := by
  refine ⟨?_, (runFold_inv (pre ++ [x])).1, ?_, ?_⟩
  · rw [runFold_snoc, ← runFold_lt_best_iff pre x.f1]
    by_cases hc : (runFold pre).best_f1 < x.f1
    · simp [valStep, hc]
    · simp only [valStep, if_neg hc]
      constructor
      · intro h
        rcases hb : (runFold pre).arts.best with _ | j
        · rw [hb] at h
          exact absurd h (by simp)
        · rw [hb] at h
          have hj : j = pre.length := by
            simpa using h
          have hlt := runFold_best_lt pre j hb
          omega
      · intro h
        exact absurd h hc
  · rw [runFold_snoc]
    by_cases hc : (runFold pre).best_f1 < x.f1
    · simp [valStep, hc]
    · simp only [valStep, if_neg hc]
      constructor
      · intro h
        exact absurd h (by simp)
      · intro h
        rcases hb : (runFold pre).arts.best with _ | j
        · rw [hb] at h
          exact absurd h (by simp)
        · rw [hb] at h
          have hj : j = pre.length := by simpa using h
          have hlt := runFold_best_lt pre j hb
          omega
  · intro j h
    obtain ⟨e, he, _, _, _, _, hle⟩ := (runFold_inv (pre ++ [x])).2.2 j h
    exact ⟨e, he, hle⟩

/-- Witness for C2 at a concrete fold: with epoch F1 sequence `1, 2` the
second epoch overwrites the best artifacts. -/
theorem C2_best_artifact_policy_witness :
    (runFold ([EpochVal.mk 1 1 2] ++ [EpochVal.mk 2 1 1])).arts.best = some 1 :=
  (C2_best_artifact_policy [EpochVal.mk 1 1 2] (EpochVal.mk 2 1 1)).1.mpr (by decide)

/-- Counterexample to C2 as stated: at the first epoch an F1 of exactly `0`
strictly exceeds every previous epoch's F1 vacuously, yet neither
`best.pth` nor the reports are written and the error-analysis writer is
not invoked, because the comparison is against the initial best value `0`. -/
theorem C2_counterexample :
    (∀ y ∈ ([] : List EpochVal), y.f1 < (EpochVal.mk 0 0 0).f1) ∧
    (runFold [EpochVal.mk 0 0 0]).arts.best = none ∧
    (runFold [EpochVal.mk 0 0 0]).arts.bestReports = none ∧
    (runFold [EpochVal.mk 0 0 0]).eaCalls = 0 :=
  ⟨by simp, by decide, by decide, by decide⟩

/-- C6 (confirmed): in every epoch of every fold, the epoch's weights are
saved to the fixed `last.pth` after validation, whether or not the epoch
improved the validation F1. -/
theorem C6_last_saved_every_epoch (pre : List EpochVal) (x : EpochVal) :
    (runFold (pre ++ [x])).arts.last = some pre.length := by
  rw [runFold_snoc]
  by_cases hc : (runFold pre).best_f1 < x.f1 <;> simp [valStep, hc]

/-- C9 (confirmed): the tracked `best_val_acc` and `best_val_loss` always
hold the accuracy and loss of the epoch whose state `best.pth` holds (the
best-F1 epoch), and keep their initial values `0` and `np.inf` while no
best exists; they never track a running maximum accuracy or minimum
loss. -/
theorem C9_best_metrics_track_best_f1 (l : List EpochVal) :
    ((runFold l).arts.best = none →
      (runFold l).best_val_acc = 0 ∧ (runFold l).best_val_loss = none) ∧
    (∀ j, (runFold l).arts.best = some j →
      ∃ e, l[j]? = some e ∧ (runFold l).best_f1 = e.f1 ∧
        (runFold l).best_val_acc = e.acc ∧ (runFold l).best_val_loss = some e.loss) := by
  refine ⟨fun h => ?_, fun j h => ?_⟩
  · obtain ⟨_, h2, h3, _⟩ := (runFold_inv l).2.1 h
    exact ⟨h2, h3⟩
  · obtain ⟨e, he, hf1, hacc, hloss, _, _⟩ := (runFold_inv l).2.2 j h
    exact ⟨e, he, hf1, hacc, hloss⟩

/-- Witness for C9 at a concrete fold: after the single epoch
`(f1, acc, loss) = (1, 2, 3)` the tracked scalars are that epoch's. -/
theorem C9_best_metrics_track_best_f1_witness :
    ∃ e, [EpochVal.mk 1 2 3][0]? = some e ∧
      (runFold [EpochVal.mk 1 2 3]).best_f1 = e.f1 ∧
      (runFold [EpochVal.mk 1 2 3]).best_val_acc = e.acc ∧
      (runFold [EpochVal.mk 1 2 3]).best_val_loss = some e.loss :=
  (C9_best_metrics_track_best_f1 [EpochVal.mk 1 2 3]).2 0 (by decide)

theorem runBatchesAux_append (t1 : List BatchRes) (li bs n : Nat) (s : TrainLog)
    (t2 : List BatchRes) :
    runBatchesAux li bs n s (t1 ++ t2) =
      runBatchesAux li bs (n + t1.length) (runBatchesAux li bs n s t1) t2 := by
  induction t1 generalizing n s with
  | nil => simp [runBatchesAux]
  | cons b t ih =>
    simp only [List.cons_append, runBatchesAux, List.length_cons, List.append_eq]
    rw [ih]
    congr 1
    omega

theorem runBatches_snoc (li bs : Nat) (l : List BatchRes) (b : BatchRes) :
    runBatches li bs (l ++ [b]) = batchStep li bs l.length b (runBatches li bs l) := by
  simp [runBatches, runBatchesAux_append, runBatchesAux]

theorem filterMapCongr {α β : Type} (l : List α) (f g : α → Option β)
    (h : ∀ a ∈ l, f a = g a) : l.filterMap f = l.filterMap g := by
  induction l with
  | nil => rfl
  | cons a t ih =>
    simp only [List.filterMap_cons, h a (List.mem_cons_self a t)]
    rw [ih fun x hx => h x (List.mem_cons_of_mem a hx)]

/-- Incrementing a counter either completes a window of the log interval
(and the counter's residue was maximal) or advances the residue by one. -/
theorem batch_mod_step (n li : Nat) (hli : 0 < li) :
    ((n + 1) % li = 0 ∧ n % li = li - 1) ∨ ((n + 1) % li = n % li + 1) := by
  have hr : n % li < li := Nat.mod_lt _ hli
  have hn : li * (n / li) + n % li = n := Nat.div_add_mod n li
  rcases Nat.lt_or_ge (n % li + 1) li with h | h
  · right
    have he : n + 1 = li * (n / li) + (n % li + 1) := by omega
    rw [he, Nat.mul_add_mod]
    exact Nat.mod_eq_of_lt h
  · left
    have he : n + 1 = li * (n / li + 1) := by
      rw [Nat.mul_add, Nat.mul_one]
      omega
    refine ⟨by rw [he, Nat.mul_mod_right], by omega⟩

theorem specLogs_snoc (li bs : Nat) (pre : List BatchRes) (b : BatchRes) :
    specLogs li bs (pre ++ [b]) = specLogs li bs pre ++
      (if (pre.length + 1) % li = 0 then
        [(pre.length + 1,
          (((pre ++ [b]).drop (pre.length + 1 - li)).map BatchRes.loss).sum / (li : ℚ),
          ((((pre ++ [b]).drop (pre.length + 1 - li)).map BatchRes.matched).sum : ℚ)
            / (bs : ℚ) / (li : ℚ))]
      else []) := by
  unfold specLogs
  rw [List.length_append, List.length_singleton, List.range_succ, List.filterMap_append]
  congr 1
  · apply filterMapCongr
    intro idx hidx
    have hlt : idx < pre.length := List.mem_range.1 hidx
    by_cases hmod : (idx + 1) % li = 0
    · rw [if_pos hmod, if_pos hmod]
      have htake : (pre ++ [b]).take (idx + 1) = pre.take (idx + 1) := by
        rw [List.take_append_eq_append_take]
        have hz : idx + 1 - pre.length = 0 := by omega
        rw [hz]
        simp
      rw [htake]
    · rw [if_neg hmod, if_neg hmod]
  · simp only [List.filterMap_cons, List.filterMap_nil]
    by_cases hmod : (pre.length + 1) % li = 0
    · rw [if_pos hmod, if_pos hmod]
      have htake : (pre ++ [b]).take (pre.length + 1) = pre ++ [b] := by
        apply List.take_of_length_le
        simp
      rw [htake]
    · rw [if_neg hmod, if_neg hmod]

/-- C7 (confirmed): during the batch loop, a loss/accuracy log entry is
emitted exactly when the number of processed batches is a positive
multiple of the log interval; each entry averages exactly the window of
batches since the previous entry, and after each entry the running loss
sum and running match count are reset (so at any point they cover exactly
the `n % log_interval` most recent batches). -/
theorem C7_log_cadence (li bs : Nat) (hli : 0 < li) (l : List BatchRes) :
    (runBatches li bs l).logs = specLogs li bs l ∧
    (runBatches li bs l).loss_value =
      ((l.drop (windowStart l.length li)).map BatchRes.loss).sum ∧
    (runBatches li bs l).matchCnt =
      ((l.drop (windowStart l.length li)).map BatchRes.matched).sum := by
  induction l using List.reverseRecOn with
  | nil =>
    refine ⟨rfl, by simp [runBatches, runBatchesAux], by simp [runBatches, runBatchesAux]⟩
  | append_singleton pre b ih =>
    obtain ⟨ihLogs, ihLoss, ihMatch⟩ := ih
    rw [runBatches_snoc, specLogs_snoc]
    have hws : windowStart pre.length li ≤ pre.length := Nat.sub_le _ _
    have hdropSnoc : ∀ k, k ≤ pre.length →
        (pre ++ [b]).drop k = pre.drop k ++ [b] := by
      intro k hk
      rw [List.drop_append_eq_append_drop]
      have hz : k - pre.length = 0 := by omega
      rw [hz]
      simp
    rcases batch_mod_step pre.length li hli with ⟨hmod, hres⟩ | hstep
    · have hlen : li - 1 ≤ pre.length := by
        have hml : pre.length % li ≤ pre.length := Nat.mod_le _ _
        omega
      have hwin : windowStart pre.length li = pre.length + 1 - li := by
        unfold windowStart
        omega
      have hwin1 : windowStart (pre.length + 1) li = pre.length + 1 := by
        unfold windowStart
        omega
      rw [hwin] at ihLoss ihMatch
      simp only [batchStep, List.length_append, List.length_singleton, if_pos hmod]
      refine ⟨?_, ?_, ?_⟩
      · rw [ihLogs]
        have hA : (runBatches li bs pre).loss_value + b.loss
            = (List.map BatchRes.loss (List.drop (pre.length + 1 - li) (pre ++ [b]))).sum := by
          rw [hdropSnoc _ (by omega), List.map_append, List.sum_append, ← ihLoss]
          simp
        have hB : (runBatches li bs pre).matchCnt + b.matched
            = (List.map BatchRes.matched (List.drop (pre.length + 1 - li) (pre ++ [b]))).sum := by
          rw [hdropSnoc _ (by omega), List.map_append, List.sum_append, ← ihMatch]
          simp
        rw [hA, hB]
      · rw [hwin1, List.drop_eq_nil_of_le (by simp)]
        simp
      · rw [hwin1, List.drop_eq_nil_of_le (by simp)]
        simp
    · have hmodne : (pre.length + 1) % li ≠ 0 := by omega
      have hwin1 : windowStart (pre.length + 1) li = windowStart pre.length li := by
        unfold windowStart
        omega
      simp only [batchStep, List.length_append, List.length_singleton, if_neg hmodne]
      refine ⟨?_, ?_, ?_⟩
      · rw [ihLogs]
        simp
      · rw [hwin1, hdropSnoc _ hws, List.map_append, List.sum_append, ihLoss]
        simp
      · rw [hwin1, hdropSnoc _ hws, List.map_append, List.sum_append, ihMatch]
        simp

/-- Witness for C7 at a concrete epoch: interval 2, batch size 1, three
batches; entries appear exactly at batch 2 and cover exactly their
window. -/
theorem C7_log_cadence_witness :
    0 < 2 ∧
      (runBatches 2 1 [BatchRes.mk 1 1, BatchRes.mk 3 0, BatchRes.mk 5 1]).logs
        = specLogs 2 1 [BatchRes.mk 1 1, BatchRes.mk 3 0, BatchRes.mk 5 1] :=
  ⟨by decide,
    (C7_log_cadence 2 1 (by decide) [BatchRes.mk 1 1, BatchRes.mk 3 0, BatchRes.mk 5 1]).1⟩

/-- C3 (code bug, evaluated at the failing input): for the recognized
identifier `resnet18` the selector does not replace the architecture's
head.  The fresh `nn.Linear(1024, 18)` is assigned to the unused
`classifier` attribute (whose in-features `1024` do not even match the
`512` features the backbone produces), while `forward` still reads the
original `fc` layer, so the returned model emits `1000` logits, not the
requested `18`.  The other three recognized identifiers do emit the
requested count. -/
theorem C3_resnet18_head_not_replaced :
    (∃ m, select_model ("resnet18") 18 = .ok m ∧ m.head = HeadAttr.fc ∧
      m.fc = some ⟨512, 1000⟩ ∧ m.classifier = some ⟨1024, 18⟩ ∧
      outLogits m = some 1000) ∧
    (select_model ("densenet161") 18).map outLogits = .ok (some 18) ∧
    (select_model ("shufflenet") 18).map outLogits = .ok (some 18) ∧
    (select_model ("efficientnet") 18).map outLogits = .ok (some 18) :=
  ⟨⟨_, rfl, rfl, rfl, rfl, rfl⟩, rfl, rfl, rfl⟩

/-- Counterexample to C4 as stated: at the unrecognized identifier
`mobilenet` the selector does not return `None` (it returns no value at
all); it raises `UnboundLocalError` from `return model_`. -/
theorem C4_counterexample :
    select_model ("mobilenet") 18 = .error PyErr.unboundLocal ∧
    ∀ m : PyModel, select_model ("mobilenet") 18 ≠ .ok m := by
  refine ⟨rfl, fun m h => ?_⟩
  rw [show select_model ("mobilenet") 18 = .error PyErr.unboundLocal from rfl] at h
  exact Except.noConfusion h

/-- C4 (amended): every identifier outside the four recognized ones falls
through every branch, and the function then raises an unbound-local error
(`UnboundLocalError` at `return model_`) rather than returning a value;
there is no explicit validation of the identifier. -/
theorem C4_unrecognized_raises (s : String) (nc : Nat)
    (h1 : s ≠ "resnet18") (h2 : s ≠ "densenet161")
    (h3 : s ≠ "shufflenet") (h4 : s ≠ "efficientnet") :
    select_model s nc = .error PyErr.unboundLocal := by
  simp [select_model, h1, h2, h3, h4]

/-- Witness for C4 at a concrete unrecognized identifier. -/
theorem C4_unrecognized_raises_witness :
    select_model "vgg16" 18 = .error PyErr.unboundLocal :=
  C4_unrecognized_raises ("vgg16") 18 (by decide) (by decide) (by decide) (by decide)

/-- Counterexample to C5 as stated: for the constant-`1/3` report the
written table holds the binary32 value `11184811/33554432` in every cell,
not the input value `1/3`; the DataFrame's `float32` dtype makes the copy
inexact. -/
theorem C5_counterexample :
    (save_f1_result cexReport).length = 18 ∧
    (save_f1_result cexReport)[0]? =
      some [mkRat 11184811 33554432, mkRat 11184811 33554432, mkRat 11184811 33554432] ∧
    mkRat 11184811 33554432 ≠ mkRat 1 3 :=
  ⟨by decide, by decide, by decide⟩

/-- C5 (amended): for every input report the writer produces exactly 18
rows, one per class index 0..17 in ascending index order, whose precision,
recall and F1 entries are the binary32 (`float32`) conversions of the
corresponding input report values; whenever the three inputs of a row are
binary32-representable, that row equals the inputs exactly. -/
theorem C5_metrics_table (report : Nat → ReportRow) :
    (save_f1_result report).length = 18 ∧
    (∀ i, i < 18 →
      (save_f1_result report)[i]? =
        some [float32Round (report i).prec, float32Round (report i).rcl,
          float32Round (report i).f1s]) ∧
    (∀ i, i < 18 → F32Rep (report i).prec → F32Rep (report i).rcl →
      F32Rep (report i).f1s →
      (save_f1_result report)[i]? =
        some [(report i).prec, (report i).rcl, (report i).f1s]) := by
  have hrow : ∀ i, i < 18 →
      (save_f1_result report)[i]? =
        some [float32Round (report i).prec, float32Round (report i).rcl,
          float32Round (report i).f1s] := by
    intro i hi
    simp [save_f1_result, List.getElem?_map, List.getElem?_range, hi]
  refine ⟨by simp [save_f1_result], hrow, fun i hi hp hr hf => ?_⟩
  unfold F32Rep at hp hr hf
  rw [hrow i hi, hp, hr, hf]

/-- Witness for C5 at a concrete report with representable values. -/
theorem C5_metrics_table_witness :
    (save_f1_result repReport)[0]? = some [mkRat 1 2, 1, 0] :=
  (C5_metrics_table repReport).2.2 0 (by decide) (by decide) (by decide) (by decide)

/-- C10 (confirmed): the fold loop builds its model by
`select_model('efficientnet', 18)` with both arguments hard-coded: the
result does not depend on the parsed command-line arguments or on the
dataset's reported class count, and it is an EfficientNet-b0 whose head
emits exactly 18 logits. -/
theorem C10_hardcoded_model (args args' : Args) (ncs ncs' : Nat) :
    foldModelChoice args ncs = foldModelChoice args' ncs' ∧
    foldModelChoice args ncs = select_model ("efficientnet") 18 ∧
    ∃ m, foldModelChoice args ncs = .ok m ∧ m.arch = "efficientnet-b0" ∧
      outLogits m = some 18 :=
  ⟨rfl, rfl, _, rfl, rfl, rfl⟩

theorem digitChar_isDigit (d : Nat) : (digitChar d).isDigit = true := by
  rcases d with _ | _ | _ | _ | _ | _ | _ | _ | _ | _ <;> rfl

theorem digitVal_digitChar (d : Nat) (h : d < 10) : digitVal (digitChar d) = d := by
  interval_cases d <;> rfl

theorem natDigitsRevFuel_digits (fuel : Nat) :
    ∀ n, n ≤ fuel → ∀ c ∈ natDigitsRevFuel fuel n, c.isDigit = true := by
  induction fuel with
  | zero =>
    intro n h c hc
    interval_cases n
    simp [natDigitsRevFuel] at hc
  | succ fuel ih =>
    intro n h c hc
    match n with
    | 0 => simp [natDigitsRevFuel] at hc
    | m + 1 =>
      simp only [natDigitsRevFuel, List.mem_cons] at hc
      rcases hc with rfl | hc
      · exact digitChar_isDigit _
      · have hd : (m + 1) / 10 ≤ fuel := by
          have hlt := Nat.div_lt_self (Nat.succ_pos m) (by norm_num : 1 < 10)
          omega
        exact ih _ hd c hc

theorem natToDigits_isDigit (n : Nat) : ∀ c ∈ natToDigits n, c.isDigit = true := by
  unfold natToDigits
  by_cases h : n = 0
  · subst h
    intro c hc
    simp at hc
    subst hc
    rfl
  · rw [if_neg h]
    intro c hc
    rw [List.mem_reverse] at hc
    exact natDigitsRevFuel_digits n n (le_refl n) c hc

theorem natToDigits_ne_nil (n : Nat) : natToDigits n ≠ [] := by
  unfold natToDigits
  by_cases h : n = 0
  · simp [h]
  · rw [if_neg h]
    match n, h with
    | m + 1, _ => simp [natDigitsRevFuel]

theorem digitsToNat_natDigitsRevFuel (fuel : Nat) :
    ∀ n, n ≤ fuel → ∀ a : Nat,
      List.foldl (fun a c => 10 * a + digitVal c) a (natDigitsRevFuel fuel n).reverse
        = a * 10 ^ (natDigitsRevFuel fuel n).length + n := by
  induction fuel with
  | zero =>
    intro n h a
    interval_cases n
    simp [natDigitsRevFuel]
  | succ fuel ih =>
    intro n h a
    match n with
    | 0 => simp [natDigitsRevFuel]
    | m + 1 =>
      have hd : (m + 1) / 10 ≤ fuel := by
        have hlt := Nat.div_lt_self (Nat.succ_pos m) (by norm_num : 1 < 10)
        omega
      simp only [natDigitsRevFuel, List.reverse_cons, List.foldl_append, List.length_cons]
      rw [ih _ hd a]
      simp only [List.foldl_cons, List.foldl_nil]
      rw [digitVal_digitChar _ (Nat.mod_lt _ (by norm_num))]
      have hmod : 10 * ((m + 1) / 10) + (m + 1) % 10 = m + 1 := Nat.div_add_mod (m + 1) 10
      have hx : 10 * (a * 10 ^ (natDigitsRevFuel fuel ((m + 1) / 10)).length + (m + 1) / 10)
            + (m + 1) % 10
          = a * 10 ^ ((natDigitsRevFuel fuel ((m + 1) / 10)).length + 1)
            + (10 * ((m + 1) / 10) + (m + 1) % 10) := by
        ring
      rw [hx, hmod]

theorem digitsToNat_natToDigits (n : Nat) : digitsToNat (natToDigits n) = n := by
  unfold natToDigits
  by_cases h : n = 0
  · subst h
    rfl
  · rw [if_neg h]
    unfold digitsToNat
    rw [digitsToNat_natDigitsRevFuel n n (le_refl n) 0]
    simp

theorem isPrefixOf_eq_true_iff (s l : List Char) : s.isPrefixOf l = true ↔ s <+: l :=
  List.isPrefixOf_iff_prefix

theorem prefix_append_iff_of_le {α : Type} (s l e : List α) (h : s.length ≤ l.length) :
    (s <+: (l ++ e)) ↔ (s <+: l) := by
  constructor
  · intro hp
    rw [List.prefix_iff_eq_take] at hp ⊢
    rw [List.take_append_eq_append_take] at hp
    have hz : s.length - l.length = 0 := by omega
    rw [hz] at hp
    simpa using hp
  · intro hp
    exact hp.trans (List.prefix_append l e)

theorem takeWhile_all {p : Char → Bool} (l : List Char) (h : ∀ c ∈ l, p c = true) :
    l.takeWhile p = l := by
  induction l with
  | nil => rfl
  | cons c t ih =>
    rw [List.takeWhile_cons, h c (List.mem_cons_self c t)]
    simp [ih fun x hx => h x (List.mem_cons_of_mem c hx)]

theorem matchAt_stem_append (stem ds : List Char) (hne : ds ≠ [])
    (hdig : ∀ c ∈ ds, c.isDigit = true) :
    matchAt stem (stem ++ ds) = some (digitsToNat ds) := by
  unfold matchAt
  rw [if_pos ((isPrefixOf_eq_true_iff _ _).2 (List.prefix_append stem ds))]
  rw [List.drop_left, takeWhile_all ds hdig, if_neg]
  simpa using hne

theorem reSearch_append_digits (stem p ds : List Char) (h1 : reSearch stem p = none)
    (h2 : stem <:+ p) (h3 : ds ≠ []) (h4 : ∀ c ∈ ds, c.isDigit = true) :
    reSearch stem (p ++ ds) = some (digitsToNat ds) := by
  induction p with
  | nil =>
    have hs : stem = [] := List.suffix_nil.1 h2
    subst hs
    match ds, h3 with
    | d :: t, _ =>
      have hm := matchAt_stem_append [] (d :: t) (by simp) h4
      simp only [List.nil_append] at hm ⊢
      simp [reSearch, hm]
  | cons c p' ih =>
    rcases List.suffix_cons_iff.1 h2 with heq | hsuf
    · subst heq
      have hm := matchAt_stem_append (c :: p') ds h3 h4
      rw [List.cons_append] at hm
      rw [List.cons_append]
      simp [reSearch, hm]
    · have hlen : stem.length ≤ p'.length := hsuf.length_le
      have h1' : reSearch stem p' = none := by
        rcases hma : matchAt stem (c :: p') with _ | v
        · simp only [reSearch, hma] at h1
          exact h1
        · simp only [reSearch, hma] at h1
          exact Option.noConfusion h1
      have hmext : matchAt stem (c :: (p' ++ ds)) = none := by
        have hiff := prefix_append_iff_of_le stem (c :: p') ds
          (by simp; omega)
        rw [show c :: (p' ++ ds) = (c :: p') ++ ds from rfl]
        by_cases hpre : stem <+: (c :: p')
        · have hma : matchAt stem (c :: p') = none := by
            rcases hm : matchAt stem (c :: p') with _ | v
            · rfl
            · simp only [reSearch, hm] at h1
              exact h1
          unfold matchAt at hma ⊢
          rw [if_pos ((isPrefixOf_eq_true_iff _ _).2 hpre)] at hma
          rw [if_pos ((isPrefixOf_eq_true_iff _ _).2 (hiff.2 hpre))]
          have hdropne : (c :: p').drop stem.length ≠ [] := by
            intro hnil
            have hlen2 := congrArg List.length hnil
            simp [List.length_drop] at hlen2
            omega
          obtain ⟨x, rest, hxr⟩ := List.exists_cons_of_ne_nil hdropne
          rw [hxr] at hma
          have hxnd : x.isDigit = false := by
            by_cases hxd : x.isDigit
            · rw [List.takeWhile_cons, hxd] at hma
              simp at hma
            · exact Bool.eq_false_iff.2 hxd
          have hdropext : ((c :: p') ++ ds).drop stem.length
              = x :: (rest ++ ds) := by
            rw [List.drop_append_eq_append_drop]
            have hz : stem.length - (c :: p').length = 0 := by simp; omega
            rw [hz, List.drop_zero, hxr]
            rfl
          rw [hdropext, List.takeWhile_cons, hxnd]
          simp
        · unfold matchAt
          rw [if_neg]
          intro hb
          exact hpre (hiff.1 ((isPrefixOf_eq_true_iff _ _).1 hb))
      rw [List.cons_append]
      simp only [reSearch, hmext]
      exact ih h1' hsuf

theorem reSearch_sibling (path : List Char) (j : Nat)
    (hend : pyStem path <:+ path) (hnone : reSearch (pyStem path) path = none) :
    reSearch (pyStem path) (path ++ natToDigits j) = some j := by
  rw [reSearch_append_digits (pyStem path) path (natToDigits j) hnone hend
      (natToDigits_ne_nil j) (natToDigits_isDigit j)]
  rw [digitsToNat_natToDigits]

theorem pyMax_append_singleton (l : List Nat) (b : Nat) (h : l ≠ []) :
    pyMax (l ++ [b]) = (pyMax l).map (fun m => Nat.max m b) := by
  match l, h with
  | a :: t, _ =>
    simp only [pyMax, List.cons_append, List.foldl_append, Option.map_some]
    simp [List.foldl]

theorem pyMax_range_succ (k : Nat) : pyMax (List.range (k + 1)) = some k := by
  induction k with
  | zero => rfl
  | succ k ih =>
    rw [List.range_succ, pyMax_append_singleton _ _ (by simp), ih]
    simp [Nat.max_eq_right (Nat.le_succ k)]

/-- C1 (amended): `increment_path` returns the path unchanged when it does
not exist or `exist_ok` is set.  Otherwise it extracts from every glob
sibling the digit run following the leftmost occurrence of the stem
anywhere in the sibling's full path text and appends the maximum extracted
value plus one (or `2` when no extraction succeeds).  For base paths whose
text does not already contain the stem followed by a digit (and which end
with their stem, i.e. carry no extension), this coincides with the
original claim: with siblings suffixed `0..k` the result carries suffix
`k + 1`. -/
theorem C1_increment_path (path : List Char) (k : Nat)
    (hend : pyStem path <:+ path)
    (hnone : reSearch (pyStem path) path = none) :
    increment_path (path :: (List.range (k + 1)).map (fun j => path ++ natToDigits j))
        path false = path ++ natToDigits (k + 1) ∧
    ∀ (fs : List (List Char)) (ok : Bool), path ∉ fs ∨ ok = true →
      increment_path fs path ok = path := by
  constructor
  · have hcont : (path :: (List.range (k + 1)).map
        (fun j => path ++ natToDigits j)).contains path = true := by
      simp [List.contains_cons]
    have hglob : globStar (path :: (List.range (k + 1)).map
        (fun j => path ++ natToDigits j)) path
        = path :: (List.range (k + 1)).map (fun j => path ++ natToDigits j) := by
      unfold globStar
      rw [List.filter_eq_self]
      intro d hd
      rcases List.mem_cons.1 hd with rfl | hd'
      · have h1 : d.isPrefixOf d = true :=
          (isPrefixOf_eq_true_iff _ _).2 (List.prefix_refl d)
        rw [h1, List.drop_length]
        rfl
      · obtain ⟨j, _, rfl⟩ := List.mem_map.1 hd'
        have h1 : path.isPrefixOf (path ++ natToDigits j) = true :=
          (isPrefixOf_eq_true_iff _ _).2 (List.prefix_append _ _)
        have h2 : (path ++ natToDigits j).drop path.length = natToDigits j :=
          List.drop_left _ _
        have h3 : (natToDigits j).contains '/' = false := by
          by_contra hb
          have hmem : '/' ∈ natToDigits j := by
            have hb' : (natToDigits j).contains '/' = true := by
              revert hb
              cases (natToDigits j).contains '/' <;> simp
            simpa using hb'
          have hdig := natToDigits_isDigit j '/' hmem
          exact absurd hdig (by decide)
        rw [h1, h2, h3]
        rfl
    have hfm : (path :: (List.range (k + 1)).map
        (fun j => path ++ natToDigits j)).filterMap (reSearch (pyStem path))
        = List.range (k + 1) := by
      rw [List.filterMap_cons_none hnone, List.filterMap_map]
      have hfun : (reSearch (pyStem path) ∘ fun j => path ++ natToDigits j)
          = fun j => some j := by
        funext j
        exact reSearch_sibling path j hend hnone
      rw [hfun]
      exact List.filterMap_some _
    unfold increment_path
    rw [if_neg]
    · simp only [hglob, hfm, pyMax_range_succ]
    · rw [hcont]
      simp
  · intro fs ok h
    unfold increment_path
    rw [if_pos]
    rcases h with h | h
    · have hc : fs.contains path = false := by
        rcases hv : fs.contains path
        · rfl
        · exact absurd (List.mem_of_elem_eq_true hv) h
      rw [hc]
      rfl
    · subst h
      rcases hv : fs.contains path <;> rfl

/-- Witness for C1 at a concrete base path without extension or interior
stem-digit occurrence: `model/exp` with siblings `model/exp0..model/exp3`
increments to `model/exp4`. -/
theorem C1_increment_path_witness :
    pyStem ("model/exp".data) <:+ "model/exp".data ∧
    reSearch (pyStem ("model/exp".data)) ("model/exp".data) = none ∧
    increment_path ("model/exp".data ::
        (List.range 4).map (fun j => "model/exp".data ++ natToDigits j))
      ("model/exp".data) false = "model/exp".data ++ natToDigits 4 :=
  ⟨by decide, by decide,
    (C1_increment_path ("model/exp".data) 3 (by decide) (by decide)).1⟩

/-- Counterexample to C1 as stated: for the existing base path `a1/a` with
the single sibling `a1/a0` (numeric suffix `0`), the claim predicts suffix
`0 + 1 = 1`, i.e. `a1/a1`.  The unanchored `re.search` matches the stem
`a` at the very start of both globbed paths, where it is followed by the
digit `1` of the directory name `a1`, so the code computes
`max [1, 1] + 1 = 2` and returns `a1/a2`. -/
theorem C1_counterexample :
    increment_path ["a1/a".data, "a1/a0".data] ("a1/a".data) false = "a1/a2".data ∧
    increment_path ["a1/a".data, "a1/a0".data] ("a1/a".data) false ≠ "a1/a1".data :=
  ⟨by decide, by decide⟩
